import Mathlib

/-!
Verification development for the FDI spreadsheet fill pipeline
(`fdi_process.py`): category parsing, hierarchy construction, the
fixed-point constraint fill engine and the top-down mean imputer.

Cell values are modelled by the three-way type `Val` (a number, the
redacted marker "C", or an absent cell); numbers are rationals, so all
arithmetic is exact.  Strings are lists of characters; the regular
expressions of the source are open-coded character matchers.
-/

namespace FDI

/-- A cell value: a number, the textual redacted marker "C", or absent
(NaN in the source). -/
inductive Val where
  | num : ℚ → Val
  | redacted : Val
  | blank : Val
deriving DecidableEq, Repr

/-- The missing test of the source: a cell is missing when it is absent
(NaN) or carries the redacted marker. -/
def isMissing : Val → Bool
  | .num _ => false
  | .redacted => true
  | .blank => true

/-- Numeric payload of a value, defaulting to 0 (used only where the value
is known to be a number). -/
def numOf : Val → ℚ
  | .num q => q
  | _ => 0

/-- Numeric payload as an option. -/
def toNumOpt : Val → Option ℚ
  | .num q => some q
  | _ => none

/-- Python whitespace characters stripped by `str.strip` and matched by
the regex class `\s` (ASCII fragment). -/
def isPySpace (c : Char) : Bool :=
  decide (c = ' ') || decide (c = '\t') || decide (c = '\n') ||
  decide (c = '\r') || decide (c = Char.ofNat 11) || decide (c = Char.ofNat 12)

/-- `str.strip()`: drop whitespace from both ends. -/
def strip (cs : List Char) : List Char :=
  ((cs.dropWhile isPySpace).reverse.dropWhile isPySpace).reverse

/-- Value of a two-digit numeral given by its characters. -/
def dval (c1 c2 : Char) : Nat :=
  10 * (c1.toNat - 48) + (c2.toNat - 48)

/-- The literal produced by Python `f"{n:02d}"` for `n < 100`. -/
def twoDigitStr (n : Nat) : List Char :=
  [Char.ofNat (48 + n / 10), Char.ofNat (48 + n % 10)]

/-- The code set `{f"{num:02d}" for num in range(x, y + 1)}`. -/
def rangeCodes (x y : Nat) : List (List Char) :=
  (List.range (y + 1 - x)).map (fun k => twoDigitStr (x + k))

/-- Matcher for the anchored regex `^(\d{2})\s*-\s*(\d{2})`, returning the
numeric values of the two groups. -/
def matchHyphen : List Char → Option (Nat × Nat)
  | c1 :: c2 :: rest =>
    if c1.isDigit && c2.isDigit then
      match rest.dropWhile isPySpace with
      | h :: rest2 =>
        if h = '-' then
          match rest2.dropWhile isPySpace with
          | c3 :: c4 :: _ =>
            if c3.isDigit && c4.isDigit then some (dval c1 c2, dval c3 c4) else none
          | _ => none
        else none
      | [] => none
    else none
  | _ => none

/-- Matcher for the anchored regex `^(\d{2})\s*y\s*(\d{2})` (case
insensitive), returning the two groups as strings. -/
def matchY : List Char → Option (List Char × List Char)
  | c1 :: c2 :: rest =>
    if c1.isDigit && c2.isDigit then
      match rest.dropWhile isPySpace with
      | y :: rest2 =>
        if y = 'y' ∨ y = 'Y' then
          match rest2.dropWhile isPySpace with
          | c3 :: c4 :: _ =>
            if c3.isDigit && c4.isDigit then some ([c1, c2], [c3, c4]) else none
          | _ => none
        else none
      | _ => none
    else none
  | _ => none

/-- Result of `parse_category`: a level, an optional code string and an
optional special range of 2-digit codes (Python uses a set; membership
and emptiness are the only operations used downstream). -/
structure ParsedCat where
  level : Int
  code : Option (List Char)
  special : Option (List (List Char))
deriving DecidableEq, Repr

/-- `parse_category` of the source, transcribed clause by clause. -/
def parseCategory (cs : List Char) : ParsedCat :=
  let s := strip cs
  if s.map Char.toUpper = "TOTAL".data then ⟨-1, none, none⟩
  else if s.any Char.isDigit = false then ⟨0, none, none⟩
  else
    match matchHyphen s with
    | some (x, y) => ⟨2, none, some (rangeCodes x y)⟩
    | none =>
      match matchY s with
      | some (g1, g2) => ⟨2, none, some [g1, g2]⟩
      | none =>
        let ds := s.takeWhile Char.isDigit
        if ds.length = 2 then ⟨2, some ds, none⟩
        else if ds.length = 3 then ⟨3, some ds, none⟩
        else if 4 ≤ ds.length then ⟨4, some (ds.take 4), none⟩
        else ⟨0, none, none⟩

/-! ## Hierarchy builder -/

/-- A row of the table after parsing: static identity data only.  The row
index is its position in the row list; the mutable `values` of the source
live in a separate `Vals` state. -/
structure Row where
  name : List Char
  level : Int
  code : Option (List Char)
  special : Option (List (List Char))
  parent : Option Nat
deriving DecidableEq, Repr

/-- The value table: row position and column id to cell value. -/
abbrev Vals := Nat → Nat → Val

/-- Pointwise update of the value table. -/
def setVal (v : Vals) (i c : Nat) (x : Val) : Vals :=
  fun i' c' => if i' = i ∧ c' = c then x else v i' c'

/-- Builder state: rows built so far, the `children_map` index, and the
`last_seen` map from level to latest row of that level. -/
structure BuildOut where
  rows : List Row
  cm : Nat → List Nat
  lastSeen : Int → Option Nat

/-- `last_seen[l] = i`. -/
def updLS (ls : Int → Option Nat) (l : Int) (i : Nat) : Int → Option Nat :=
  fun l' => if l' = l then some i else ls l'

/-- `children_map.setdefault(p, []).append(i)`. -/
def updCM (cm : Nat → List Nat) (p i : Nat) : Nat → List Nat :=
  fun p' => if p' = p then cm p ++ [i] else cm p'

/-- Python truthiness test `parent_code and code and code.startswith(parent_code)`. -/
def codeTest (pcode cd : Option (List Char)) : Bool :=
  match pcode, cd with
  | some pc, some c => !pc.isEmpty && !c.isEmpty && pc.isPrefixOf c
  | _, _ => false

/-- The level-3 attachment test against the most recent level-2 row:
a truthy (non-absent, non-empty) `special_range` is consulted for the
2-digit prefix of the code; otherwise the string-prefix test applies. -/
def attach3Test (cand : Row) (cd : Option (List Char)) : Bool :=
  match cand.special with
  | some sr =>
    if sr.isEmpty then codeTest cand.code cd
    else
      match cd with
      | some c => !c.isEmpty && decide (c.take 2 ∈ sr)
      | none => false
  | none => codeTest cand.code cd

/-- One step of the hierarchy pass, processing one label. -/
def buildStep (s : BuildOut) (lbl : List Char) : BuildOut :=
  let i := s.rows.length
  let pc := parseCategory lbl
  let base : Row := ⟨strip lbl, pc.level, pc.code, pc.special, none⟩
  if pc.level = -1 then
    { rows := s.rows ++ [base], cm := s.cm, lastSeen := updLS s.lastSeen (-1) i }
  else if pc.level = 0 then
    match s.lastSeen (-1) with
    | some t =>
      { rows := s.rows ++ [{ base with parent := some t }],
        cm := updCM s.cm t i, lastSeen := updLS s.lastSeen 0 i }
    | none => { rows := s.rows ++ [base], cm := s.cm, lastSeen := updLS s.lastSeen 0 i }
  else if pc.level = 2 then
    match s.lastSeen 0 with
    | some p =>
      { rows := s.rows ++ [{ base with parent := some p }],
        cm := updCM s.cm p i, lastSeen := updLS s.lastSeen 2 i }
    | none => { rows := s.rows ++ [base], cm := s.cm, lastSeen := updLS s.lastSeen 2 i }
  else if pc.level = 3 then
    match s.lastSeen 2 with
    | some c =>
      match s.rows.get? c with
      | some cand =>
        if attach3Test cand pc.code then
          { rows := s.rows ++ [{ base with parent := some c }],
            cm := updCM s.cm c i, lastSeen := updLS s.lastSeen 3 i }
        else { rows := s.rows ++ [base], cm := s.cm, lastSeen := updLS s.lastSeen 3 i }
      | none => { rows := s.rows ++ [base], cm := s.cm, lastSeen := updLS s.lastSeen 3 i }
    | none => { rows := s.rows ++ [base], cm := s.cm, lastSeen := updLS s.lastSeen 3 i }
  else if pc.level = 4 then
    match s.lastSeen 3 with
    | some c =>
      match s.rows.get? c with
      | some cand =>
        if codeTest cand.code pc.code then
          { rows := s.rows ++ [{ base with parent := some c }],
            cm := updCM s.cm c i, lastSeen := updLS s.lastSeen 4 i }
        else { rows := s.rows ++ [base], cm := s.cm, lastSeen := updLS s.lastSeen 4 i }
      | none => { rows := s.rows ++ [base], cm := s.cm, lastSeen := updLS s.lastSeen 4 i }
    | none => { rows := s.rows ++ [base], cm := s.cm, lastSeen := updLS s.lastSeen 4 i }
  else { rows := s.rows ++ [base], cm := s.cm, lastSeen := s.lastSeen }

/-- The full hierarchy pass over the labels in document order. -/
def buildHierarchy (labels : List (List Char)) : BuildOut :=
  labels.foldl buildStep ⟨[], fun _ => [], fun _ => none⟩

/-- Index of the first level `-1` (grand total) row, if any. -/
def totalIdx (rows : List Row) : Option Nat :=
  ((rows.enum).find? (fun pr => decide (pr.2.level = -1))).map Prod.fst

/-- The retroactive pass that forces every still-parentless level-0 row to
have the grand total row as parent (it runs between the fill loop and the
imputer in the source). -/
def retroAttach (rows : List Row) (cm : Nat → List Nat) :
    List Row × (Nat → List Nat) :=
  match totalIdx rows with
  | none => (rows, cm)
  | some t =>
    (rows.map (fun r =>
        if r.level = 0 ∧ r.parent = none then { r with parent := some t } else r),
     fun p =>
       if p = t then
         cm t ++ (rows.enum).filterMap (fun pr =>
           if pr.2.level = 0 ∧ pr.2.parent = none then some pr.1 else none)
       else cm p)

/-! ## Constraint fill engine -/

/-- A reference to a consumed cell, as recorded in the audit log. -/
structure CellRef where
  row : Nat
  col : Nat
  val : ℚ
deriving DecidableEq, Repr

/-- Log entry method tags. -/
inductive Method where
  | sumOfChildren
  | parentMinusSiblings
  | meanImputation (childLevel : Int)
deriving DecidableEq, Repr

/-- One audit log entry. -/
structure LogEntry where
  rowIdx : Nat
  col : Nat
  method : Method
  parentCell : Option CellRef
  cellsUsed : List CellRef
  computed : ℚ
deriving DecidableEq, Repr

/-- Engine state: the value table, the round's change flag, the fill
counter, the audit log, and the `child_cells_used` register (a Python
local that persists across loop iterations; the source reads it in the
CASE B log entry). -/
structure EngineSt where
  vals : Vals
  changed : Bool
  filled : Nat
  log : List LogEntry
  lastChild : List CellRef

/-- Scan a list of cells in one column: the sum if all are known (`none`
on the first missing cell, as the source breaks), together with the
references accumulated before the break. -/
def scanCells (v : Vals) (col : Nat) : List Nat → Option ℚ × List CellRef
  | [] => (some 0, [])
  | k :: rest =>
    match v k col with
    | .num q =>
      let (r, refs) := scanCells v col rest
      (r.map (fun s => q + s), ⟨k, col, q⟩ :: refs)
    | _ => (none, [])

/-- CASE B (parent minus siblings) for one cell.  Note that the log entry
records the `lastChild` register, exactly as the source stores
`child_cells_used` rather than `sibling_cells_used`. -/
def caseB (cm : Nat → List Nat) (i : Nat) (par : Option Nat) (col : Nat)
    (s : EngineSt) : EngineSt :=
  match par with
  | none => s
  | some p =>
    match s.vals p col with
    | .num pv =>
      match (scanCells s.vals col ((cm p).filter (fun j => decide (j ≠ i)))).1 with
      | some sq =>
        { vals := setVal s.vals i col (.num (pv - sq)),
          changed := true, filled := s.filled + 1,
          log := s.log ++
            [⟨i, col, .parentMinusSiblings, some ⟨p, col, pv⟩, s.lastChild, pv - sq⟩],
          lastChild := s.lastChild }
      | none => s
    | _ => s

/-- Processing of one (row, column) cell: skip known cells, then CASE A
(sum of children) and CASE B in order. -/
def cellStep (cm : Nat → List Nat) (i : Nat) (par : Option Nat) (col : Nat)
    (s : EngineSt) : EngineSt :=
  if isMissing (s.vals i col) then
    match cm i with
    | [] => caseB cm i par col s
    | k :: ks =>
      match (scanCells s.vals col (k :: ks)).1 with
      | some q =>
        { vals := setVal s.vals i col (.num q),
          changed := true, filled := s.filled + 1,
          log := s.log ++
            [⟨i, col, .sumOfChildren, none, (scanCells s.vals col (k :: ks)).2, q⟩],
          lastChild := (scanCells s.vals col (k :: ks)).2 }
      | none => caseB cm i par col { s with lastChild := (scanCells s.vals col (k :: ks)).2 }
  else s

/-- One row of a round: all value columns in order. -/
def rowStep (cm : Nat → List Nat) (cols : List Nat) (i : Nat)
    (par : Option Nat) (s : EngineSt) : EngineSt :=
  cols.foldl (fun t col => cellStep cm i par col t) s

/-- One full round over all rows (the caller resets the change flag). -/
def runRound (rows : List Row) (cm : Nat → List Nat) (cols : List Nat)
    (s : EngineSt) : EngineSt :=
  (rows.enum).foldl (fun t pr => rowStep cm cols pr.1 pr.2.parent t) s

/-- The round cap of the source. -/
def maxIterations : Nat := 50

/-- The fixed-point loop: rounds until no change or the cap, counting
rounds.  Fuel is `maxIterations`, so the fuel-exhausted base case is
unreachable. -/
def fillLoopAux (rows : List Row) (cm : Nat → List Nat) (cols : List Nat) :
    Nat → EngineSt → Nat → EngineSt × Nat
  | 0, s, n => (s, n)
  | fuel + 1, s, n =>
    let s' := runRound rows cm cols { s with changed := false }
    if s'.changed = false ∨ maxIterations ≤ n + 1 then (s', n + 1)
    else fillLoopAux rows cm cols fuel s' (n + 1)

/-- The fill engine on an initial value table. -/
def fillEngine (rows : List Row) (cm : Nat → List Nat) (cols : List Nat)
    (v : Vals) : EngineSt × Nat :=
  fillLoopAux rows cm cols maxIterations ⟨v, false, 0, [], []⟩ 0

/-! ## Top-down mean imputer -/

/-- The rows grouped by `impute_level`: pairs (child position, parent
position) of rows at `childLevel` whose parent row is at `parentLevel`,
in document order. -/
def imputeKids (rows : List Row) (childLevel parentLevel : Int) :
    List (Nat × Nat) :=
  (rows.enum).filterMap (fun pr =>
    if pr.2.level = childLevel then
      match pr.2.parent with
      | some p =>
        match rows.get? p with
        | some prow => if prow.level = parentLevel then some (pr.1, p) else none
        | none => none
      | none => none
    else none)

/-- First-occurrence deduplication, the iteration order of a Python dict
built with `setdefault`. -/
def firstDedupAux (seen : List Nat) : List Nat → List Nat
  | [] => []
  | a :: rest =>
    if a ∈ seen then firstDedupAux seen rest
    else a :: firstDedupAux (a :: seen) rest

/-- First-occurrence deduplication. -/
def firstDedup (l : List Nat) : List Nat :=
  firstDedupAux [] l

/-- The parents of one `impute_level` call, in group-creation order. -/
def imputeParents (rows : List Row) (childLevel parentLevel : Int) : List Nat :=
  firstDedup ((imputeKids rows childLevel parentLevel).map Prod.snd)

/-- The children grouped under one parent. -/
def groupChildren (rows : List Row) (childLevel parentLevel : Int) (p : Nat) :
    List Nat :=
  ((imputeKids rows childLevel parentLevel).filter
    (fun pr => decide (pr.2 = p))).map Prod.fst

/-- Processing of one parent group of `impute_level`: with a known parent
value and at least one missing child, every missing child receives the
equal split of the unexplained remainder. -/
def imputeGroup (childLevel : Int) (col : Nat) (p : Nat) (children : List Nat)
    (st : Vals × List LogEntry) : Vals × List LogEntry :=
  match st.1 p col with
  | .num pv =>
    let knownSum := (children.filterMap (fun c => toNumOpt (st.1 c col))).sum
    let missing := children.filter (fun c => isMissing (st.1 c col))
    if missing.isEmpty then st
    else
      let iv := (pv - knownSum) / (missing.length : ℚ)
      (missing.foldl (fun v' c => setVal v' c col (.num iv)) st.1,
       st.2 ++ missing.map (fun c =>
         ⟨c, col, .meanImputation childLevel, some ⟨p, col, pv⟩, [], iv⟩))
  | _ => st

/-- `impute_level(parent_level, child_level, col)`. -/
def imputeLevel (rows : List Row) (parentLevel childLevel : Int) (col : Nat)
    (v : Vals) (log : List LogEntry) : Vals × List LogEntry :=
  (imputeParents rows childLevel parentLevel).foldl
    (fun st p => imputeGroup childLevel col p
      (groupChildren rows childLevel parentLevel p) st)
    (v, log)

/-- `levels_order` of the source. -/
def levelsOrder : List Int := [-1, 0, 2, 3, 4]

/-- The one-shot top-down pass: columns outer, adjacent level pairs in
root-to-leaf order inner. -/
def imputeAll (rows : List Row) (cols : List Nat) (v : Vals)
    (log : List LogEntry) : Vals × List LogEntry :=
  cols.foldl (fun st col =>
    (levelsOrder.zip levelsOrder.tail).foldl (fun st2 pr =>
      imputeLevel rows pr.1 pr.2 col st2.1 st2.2) st) (v, log)

/-! ## Whole pipeline and the accounting invariant -/

/-- The pipeline in source order: hierarchy pass, fill loop, retroactive
TOTAL attachment, top-down imputation. -/
structure PipelineOut where
  built : BuildOut
  engine : EngineSt
  rounds : Nat
  attachedRows : List Row
  attachedCm : Nat → List Nat
  finalVals : Vals
  finalLog : List LogEntry

/-- Run the whole pipeline. -/
def pipeline (labels : List (List Char)) (cols : List Nat) (v0 : Vals) :
    PipelineOut :=
  let b := buildHierarchy labels
  let en := fillEngine b.rows b.cm cols v0
  let a := retroAttach b.rows b.cm
  let fin := imputeAll a.1 cols en.1.vals en.1.log
  ⟨b, en.1, en.2, a.1, a.2, fin.1, fin.2⟩

/-- Checker for the accounting invariant at one cell: if the row's value
and all its children's values are known, the value equals the exact sum of
the children's values. -/
def familyOK (cm : Nat → List Nat) (v : Vals) (i col : Nat) : Bool :=
  match v i col with
  | .num q =>
    if (cm i).all (fun k => !(isMissing (v k col))) then
      decide (q = ((cm i).map (fun k => numOf (v k col))).sum)
    else true
  | _ => true

/-- The accounting invariant over every row with children and every time
column. -/
def checkSumInv (rows : List Row) (cm : Nat → List Nat) (cols : List Nat)
    (v : Vals) : Bool :=
  (rows.enum).all (fun pr =>
    if (cm pr.1).isEmpty then true
    else cols.all (fun col => familyOK cm v pr.1 col))

/-- Agreement of a value table with a full numeric assignment: every known
numeric cell carries the assignment's value. -/
def Agrees (e : Nat → Nat → ℚ) (v : Vals) : Prop :=
  ∀ j c q, v j c = Val.num q → e j c = q

/-- Case-insensitive substring test for the word TOTAL. -/
def hasTotalSub (cs : List Char) : Bool :=
  (List.range (cs.length + 1)).any
    (fun k => "TOTAL".data.isPrefixOf ((cs.map Char.toUpper).drop k))

/-! ## Concrete inputs used in counterexamples and witnesses -/

/-- A grand total row with one level-0 child. -/
def labelsIncons : List (List Char) := ["TOTAL".data, "Agricultura".data]

/-- Known but inconsistent input values: parent 10, sole child 3. -/
def vIncons : Vals := fun i _ => if i = 0 then .num 10 else .num 3

/-- TOTAL, two level-0 rows, and two level-2 children of the second. -/
def labelsC2 : List (List Char) :=
  ["TOTAL".data, "Agricultura".data, "Mineria".data,
   "21 Carbon".data, "22 Electricidad".data]

/-- Values driving a failed Rule A attempt before a Rule B fill on row 2:
TOTAL 100, row 1 sibling 60, row 3 child 5, rows 2 and 4 missing. -/
def vC2 : Vals := fun i _ =>
  if i = 0 then .num 100 else if i = 1 then .num 60
  else if i = 3 then .num 5 else .blank

/-- A level-0 row appearing before the TOTAL row, hence parentless during
hierarchy construction. -/
def labelsC3 : List (List Char) := ["Agricultura".data, "TOTAL".data]

/-- Values for the ordering counterexample: the level-0 row is missing and
only the TOTAL row is known. -/
def vC3 : Vals := fun i _ => if i = 1 then .num 7 else .blank

/-- A parent with three level-2 children (the 100 / {30, 20, missing}
example of the spec). -/
def rowsMean : List Row :=
  [⟨"P".data, 0, none, none, none⟩, ⟨"c1".data, 2, none, none, some 0⟩,
   ⟨"c2".data, 2, none, none, some 0⟩, ⟨"c3".data, 2, none, none, some 0⟩]

/-- Values 100 / {30, 20, missing}. -/
def vMean : Vals := fun i _ =>
  if i = 0 then .num 100 else if i = 1 then .num 30
  else if i = 2 then .num 20 else .blank

/-- A parent with two level-2 children (the 100 / {missing, missing}
example of the spec). -/
def rowsMean2 : List Row :=
  [⟨"P".data, 0, none, none, none⟩, ⟨"c1".data, 2, none, none, some 0⟩,
   ⟨"c2".data, 2, none, none, some 0⟩]

/-- Values 100 / {missing, missing}. -/
def vMean2 : Vals := fun i _ => if i = 0 then .num 100 else .blank

/-- A grand total row and one level-0 child, used with consistent data. -/
def rowsTw : List Row :=
  [⟨"TOTAL".data, -1, none, none, none⟩, ⟨"Agricultura".data, 0, none, none, some 0⟩]

/-- Children index for `rowsTw`. -/
def cmTw : Nat → List Nat := fun p => if p = 0 then [1] else []

/-- Consistent values: parent missing, child 3. -/
def vTw : Vals := fun i _ => if i = 1 then .num 3 else .blank

end FDI

namespace FDI

/-! # Helper lemmas -/

/-- Invariant preservation through a left fold. -/
theorem foldl_inv {α σ : Type _} (P : σ → Prop) (f : σ → α → σ) :
    ∀ (l : List α) (s : σ), (∀ a ∈ l, ∀ t, P t → P (f t a)) → P s → P (l.foldl f s)
  | [], _, _, hs => hs
  | a :: l, s, hf, hs =>
    foldl_inv P f l (f s a) (fun b hb t ht => hf b (List.mem_cons_of_mem _ hb) t ht)
      (hf a (List.mem_cons_self _ _) s hs)

/-- CASE B never writes over a known numeric cell (the processed cell is
missing). -/
theorem caseB_preserves_num (cm : Nat → List Nat) (i : Nat) (par : Option Nat)
    (col : Nat) (s : EngineSt) (i0 c0 : Nat) (q : ℚ)
    (hm : isMissing (s.vals i col) = true)
    (hq : s.vals i0 c0 = Val.num q) :
    (caseB cm i par col s).vals i0 c0 = Val.num q := by
  unfold caseB
  split
  · exact hq
  · split
    · split
      · simp only [setVal]
        by_cases h : i0 = i ∧ c0 = col
        · exfalso
          obtain ⟨h1, h2⟩ := h
          rw [h1, h2] at hq
          rw [hq] at hm
          simp [isMissing] at hm
        · rw [if_neg h]; exact hq
      · exact hq
    · exact hq

/-- A cell step never writes over a known numeric cell. -/
theorem cellStep_preserves_num (cm : Nat → List Nat) (i : Nat) (par : Option Nat)
    (col : Nat) (s : EngineSt) (i0 c0 : Nat) (q : ℚ)
    (hq : s.vals i0 c0 = Val.num q) :
    (cellStep cm i par col s).vals i0 c0 = Val.num q := by
  unfold cellStep
  by_cases hm : isMissing (s.vals i col) = true
  · rw [if_pos hm]
    split
    · exact caseB_preserves_num cm i par col s i0 c0 q hm hq
    · split
      · simp only [setVal]
        by_cases h : i0 = i ∧ c0 = col
        · exfalso
          obtain ⟨h1, h2⟩ := h
          rw [h1, h2] at hq
          rw [hq] at hm
          simp [isMissing] at hm
        · rw [if_neg h]; exact hq
      · exact caseB_preserves_num cm i par col _ i0 c0 q hm hq
  · rw [if_neg hm]; exact hq

/-- A whole round never writes over a known numeric cell. -/
theorem runRound_preserves_num (rows : List Row) (cm : Nat → List Nat)
    (cols : List Nat) (s : EngineSt) (i0 c0 : Nat) (q : ℚ)
    (hq : s.vals i0 c0 = Val.num q) :
    (runRound rows cm cols s).vals i0 c0 = Val.num q := by
  unfold runRound
  refine foldl_inv (fun t => t.vals i0 c0 = Val.num q) _ _ s (fun pr _ t ht => ?_) hq
  unfold rowStep
  exact foldl_inv (fun t => t.vals i0 c0 = Val.num q) _ _ t
    (fun col _ t' ht' => cellStep_preserves_num cm pr.1 pr.2.parent col t' i0 c0 q ht') ht

/-- The fixed-point loop never writes over a known numeric cell. -/
theorem fillLoopAux_preserves_num (rows : List Row) (cm : Nat → List Nat)
    (cols : List Nat) :
    ∀ (fuel : Nat) (s : EngineSt) (n : Nat) (i0 c0 : Nat) (q : ℚ),
    s.vals i0 c0 = Val.num q →
    (fillLoopAux rows cm cols fuel s n).1.vals i0 c0 = Val.num q
  | 0, s, n, i0, c0, q, hq => hq
  | fuel + 1, s, n, i0, c0, q, hq => by
    rw [fillLoopAux]
    have h1 : (runRound rows cm cols { s with changed := false }).vals i0 c0
        = Val.num q :=
      runRound_preserves_num rows cm cols { s with changed := false } i0 c0 q hq
    by_cases hc : (runRound rows cm cols { s with changed := false }).changed = false
        ∨ maxIterations ≤ n + 1
    · rw [if_pos hc]; exact h1
    · rw [if_neg hc]
      exact fillLoopAux_preserves_num rows cm cols fuel _ (n + 1) i0 c0 q h1

/-- The writes of one imputation group avoid any fixed cell outside the
missing-children set. -/
theorem foldl_setVal_ne (col : Nat) (x : Val) (i0 c0 : Nat) :
    ∀ (M : List Nat) (v : Vals), (∀ c ∈ M, ¬(i0 = c ∧ c0 = col)) →
    (M.foldl (fun v' c => setVal v' c col x) v) i0 c0 = v i0 c0
  | [], v, _ => rfl
  | c :: M, v, h => by
    rw [List.foldl_cons]
    rw [foldl_setVal_ne col x i0 c0 M (setVal v c col x)
      (fun b hb => h b (List.mem_cons_of_mem _ hb))]
    rw [setVal, if_neg (h c (List.mem_cons_self _ _))]

/-- An imputation group never writes over a known numeric cell. -/
theorem imputeGroup_preserves_num (cl : Int) (col : Nat) (p : Nat)
    (children : List Nat) (st : Vals × List LogEntry) (i0 c0 : Nat) (q : ℚ)
    (hq : st.1 i0 c0 = Val.num q) :
    (imputeGroup cl col p children st).1 i0 c0 = Val.num q := by
  unfold imputeGroup
  cases hp : st.1 p col with
  | num pv =>
    simp only
    by_cases he : (children.filter (fun c => isMissing (st.1 c col))).isEmpty
    · rw [if_pos he]; exact hq
    · rw [if_neg he]
      simp only
      rw [foldl_setVal_ne]
      · exact hq
      · intro c hc hcc
        obtain ⟨h1, h2⟩ := hcc
        have : isMissing (st.1 c col) = true :=
          (List.mem_filter.mp hc).2
        rw [← h1, ← h2, hq] at this
        simp [isMissing] at this
  | redacted => exact hq
  | blank => exact hq

/-- `impute_level` never writes over a known numeric cell. -/
theorem imputeLevel_preserves_num (rows : List Row) (pl cl : Int) (col : Nat)
    (v : Vals) (log : List LogEntry) (i0 c0 : Nat) (q : ℚ)
    (hq : v i0 c0 = Val.num q) :
    (imputeLevel rows pl cl col v log).1 i0 c0 = Val.num q := by
  unfold imputeLevel
  exact foldl_inv (fun st => st.1 i0 c0 = Val.num q) _ _ (v, log)
    (fun p _ st hst => imputeGroup_preserves_num cl col p _ st i0 c0 q hst) hq

/-- The whole imputation pass never writes over a known numeric cell. -/
theorem imputeAll_preserves_num (rows : List Row) (cols : List Nat) (v : Vals)
    (log : List LogEntry) (i0 c0 : Nat) (q : ℚ)
    (hq : v i0 c0 = Val.num q) :
    (imputeAll rows cols v log).1 i0 c0 = Val.num q := by
  unfold imputeAll
  refine foldl_inv (fun st => st.1 i0 c0 = Val.num q) _ _ (v, log)
    (fun col _ st hst => ?_) hq
  exact foldl_inv (fun st => st.1 i0 c0 = Val.num q) _ _ st
    (fun (pr : Int × Int) _ st2 hst2 =>
      imputeLevel_preserves_num rows pr.1 pr.2 col _ _ i0 c0 q hst2)
    hst

/-- Whitespace characters are not digits. -/
theorem isPySpace_not_digit (c : Char) (h : isPySpace c = true) :
    c.isDigit = false := by
  simp only [isPySpace, Bool.or_eq_true, decide_eq_true_eq] at h
  rcases h with ((((h | h) | h) | h) | h) | h <;> subst h <;> decide

/-- Digits are not whitespace. -/
theorem digit_not_isPySpace (c : Char) (h : c.isDigit = true) :
    isPySpace c = false := by
  cases hs : isPySpace c with
  | false => rfl
  | true => rw [isPySpace_not_digit c hs] at h; exact absurd h (by simp)

/-- Dropping leading whitespace does not change digit presence. -/
theorem dropWhile_space_any_digit :
    ∀ l : List Char, (l.dropWhile isPySpace).any Char.isDigit = l.any Char.isDigit
  | [] => rfl
  | c :: l => by
    cases hs : isPySpace c with
    | true =>
      rw [List.dropWhile_cons_of_pos hs, dropWhile_space_any_digit l, List.any_cons,
        isPySpace_not_digit c hs]
      simp
    | false => rw [List.dropWhile_cons_of_neg (by simp [hs])]

/-- Stripping whitespace does not change digit presence. -/
theorem strip_any_digit (cs : List Char) :
    (strip cs).any Char.isDigit = cs.any Char.isDigit := by
  unfold strip
  rw [List.any_reverse, dropWhile_space_any_digit, List.any_reverse,
    dropWhile_space_any_digit]

/-- Dropping whitespace from an all-whitespace prefix stops at the first
non-whitespace character. -/
theorem dropWhile_space_append (w : List Char) (hw : ∀ c ∈ w, isPySpace c = true)
    (b : Char) (hb : isPySpace b = false) (r : List Char) :
    (w ++ b :: r).dropWhile isPySpace = b :: r := by
  induction w with
  | nil => exact List.dropWhile_cons_of_neg (by simp [hb])
  | cons c w ih =>
    rw [List.cons_append,
      List.dropWhile_cons_of_pos (hw c (List.mem_cons_self _ _))]
    exact ih (fun c' hc' => hw c' (List.mem_cons_of_mem _ hc'))

/-- Taking leading digits off a digit run followed by a non-digit yields
exactly the run. -/
theorem takeWhile_digit_run (ds rest : List Char)
    (hd : ∀ c ∈ ds, c.isDigit = true)
    (hr : ∀ c, rest.head? = some c → c.isDigit = false) :
    (ds ++ rest).takeWhile Char.isDigit = ds := by
  induction ds with
  | nil =>
    cases rest with
    | nil => rfl
    | cons c r => exact List.takeWhile_cons_of_neg (by simp [hr c rfl])
  | cons c ds ih =>
    rw [List.cons_append, List.takeWhile_cons_of_pos (hd c (List.mem_cons_self _ _)),
      ih (fun c' hc' => hd c' (List.mem_cons_of_mem _ hc'))]

/-- The hyphen matcher fails when the first character is not a digit. -/
theorem matchHyphen_head_not_digit :
    ∀ cs : List Char, (∀ c, cs.head? = some c → c.isDigit = false) →
    matchHyphen cs = none
  | [], _ => rfl
  | [c], _ => rfl
  | c1 :: c2 :: rest, h => by
    unfold matchHyphen
    dsimp only
    rw [h c1 rfl]
    simp

/-- The y matcher fails when the first character is not a digit. -/
theorem matchY_head_not_digit :
    ∀ cs : List Char, (∀ c, cs.head? = some c → c.isDigit = false) →
    matchY cs = none
  | [], _ => rfl
  | [c], _ => rfl
  | c1 :: c2 :: rest, h => by
    unfold matchY
    dsimp only
    rw [h c1 rfl]
    simp

/-- The hyphen matcher succeeds on exactly the shape of the regex
`^(\d{2})\s*-\s*(\d{2})`. -/
theorem matchHyphen_of_shape (d1 d2 d3 d4 : Char) (w1 w2 rest : List Char)
    (h1 : d1.isDigit = true) (h2 : d2.isDigit = true)
    (h3 : d3.isDigit = true) (h4 : d4.isDigit = true)
    (hw1 : ∀ c ∈ w1, isPySpace c = true) (hw2 : ∀ c ∈ w2, isPySpace c = true) :
    matchHyphen (d1 :: d2 :: (w1 ++ '-' :: (w2 ++ d3 :: d4 :: rest)))
      = some (dval d1 d2, dval d3 d4) := by
  unfold matchHyphen
  dsimp only
  rw [h1, h2]
  simp only [Bool.and_self, if_pos]
  rw [dropWhile_space_append w1 hw1 '-' (by decide)]
  simp only [if_pos rfl]
  rw [dropWhile_space_append w2 hw2 d3 (digit_not_isPySpace d3 h3)]
  dsimp only
  rw [h3, h4]
  simp

/-- The hyphen matcher fails on the y-shape (the separator is not a
hyphen). -/
theorem matchHyphen_of_y_shape (d1 d2 d3 d4 yc : Char) (w1 w2 rest : List Char)
    (hy : yc = 'y' ∨ yc = 'Y')
    (hw1 : ∀ c ∈ w1, isPySpace c = true) :
    matchHyphen (d1 :: d2 :: (w1 ++ yc :: (w2 ++ d3 :: d4 :: rest))) = none := by
  unfold matchHyphen
  dsimp only
  by_cases h12 : (d1.isDigit && d2.isDigit) = true
  · rw [if_pos h12]
    have hyns : isPySpace yc = false := by
      rcases hy with h | h <;> subst h <;> decide
    rw [dropWhile_space_append w1 hw1 yc hyns]
    have : ¬(yc = '-') := by
      rcases hy with h | h <;> subst h <;> decide
    simp [this]
  · rw [if_neg h12]

/-- The y matcher succeeds on exactly the shape of the regex
`^(\d{2})\s*y\s*(\d{2})` (case insensitive). -/
theorem matchY_of_shape (d1 d2 d3 d4 yc : Char) (w1 w2 rest : List Char)
    (h1 : d1.isDigit = true) (h2 : d2.isDigit = true)
    (h3 : d3.isDigit = true) (h4 : d4.isDigit = true)
    (hy : yc = 'y' ∨ yc = 'Y')
    (hw1 : ∀ c ∈ w1, isPySpace c = true) (hw2 : ∀ c ∈ w2, isPySpace c = true) :
    matchY (d1 :: d2 :: (w1 ++ yc :: (w2 ++ d3 :: d4 :: rest)))
      = some ([d1, d2], [d3, d4]) := by
  unfold matchY
  dsimp only
  rw [h1, h2]
  simp only [Bool.and_self, if_pos]
  have hyns : isPySpace yc = false := by
    rcases hy with h | h <;> subst h <;> decide
  rw [dropWhile_space_append w1 hw1 yc hyns]
  simp only [if_pos hy]
  rw [dropWhile_space_append w2 hw2 d3 (digit_not_isPySpace d3 h3)]
  dsimp only
  rw [h3, h4]
  simp

/-- Membership in the code range set. -/
theorem mem_rangeCodes (s : List Char) (x y : Nat) :
    s ∈ rangeCodes x y ↔ ∃ n, x ≤ n ∧ n ≤ y ∧ s = twoDigitStr n := by
  simp only [rangeCodes, List.mem_map, List.mem_range]
  constructor
  · rintro ⟨k, hk, rfl⟩
    exact ⟨x + k, by omega, by omega, rfl⟩
  · rintro ⟨n, hn1, hn2, rfl⟩
    refine ⟨n - x, by omega, ?_⟩
    rw [Nat.add_sub_cancel' hn1]

/-- A successful scan computes the sum of the assignment's values over the
scanned cells, for any assignment the table agrees with. -/
theorem scanCells_sum (v : Vals) (col : Nat) (e : Nat → Nat → ℚ)
    (hA : ∀ j qj, v j col = Val.num qj → e j col = qj) :
    ∀ (l : List Nat) (q : ℚ), (scanCells v col l).1 = some q →
    q = (l.map (fun k => e k col)).sum
  | [], q, h => by
    simp only [scanCells] at h
    injection h with h
    rw [← h, List.map_nil, List.sum_nil]
  | k :: rest, q, h => by
    rw [scanCells] at h
    cases hv : v k col with
    | num qk =>
      rw [hv] at h
      simp only [Option.map_eq_some'] at h
      obtain ⟨qr, hqr, hq⟩ := h
      rw [List.map_cons, List.sum_cons, ← hq, hA k qk hv,
        ← scanCells_sum v col e hA rest qr hqr]
    | redacted => rw [hv] at h; exact absurd h (by simp)
    | blank => rw [hv] at h; exact absurd h (by simp)

/-- A list containing an element exactly once is a permutation of that
element consed onto the list with it filtered out. -/
theorem count_one_perm (a : Nat) :
    ∀ l : List Nat, l.count a = 1 →
    l.Perm (a :: l.filter (fun x => decide (x ≠ a)))
  | [], h => absurd h (by simp)
  | b :: l, h => by
    by_cases hb : b = a
    · subst hb
      rw [List.count_cons_self] at h
      have h0 : l.count b = 0 := by omega
      have hf : l.filter (fun x => decide (x ≠ b)) = l :=
        List.filter_eq_self.mpr (fun x hx => by
          simp only [decide_eq_true_eq]
          intro hxb
          subst hxb
          exact absurd hx (List.count_eq_zero.mp h0))
      rw [List.filter_cons_of_neg (by simp)]
      rw [hf]
    · have hcnt : l.count a = 1 := by
        rwa [List.count_cons_of_ne (fun h' => hb h'.symm)] at h
      have ih := count_one_perm a l hcnt
      rw [List.filter_cons_of_pos (by simp [hb])]
      exact (ih.cons b).trans (List.Perm.swap a b _)

/-- CASE B preserves agreement with any assignment satisfying the
family-sum constraints, provided the processed row occurs exactly once
among its parent's children. -/
theorem caseB_agrees (cm : Nat → List Nat) (i : Nat) (par : Option Nat)
    (col : Nat) (s : EngineSt) (e : Nat → Nat → ℚ)
    (H1 : ∀ idx c, cm idx ≠ [] → e idx c = ((cm idx).map (fun k => e k c)).sum)
    (hpar : ∀ p, par = some p → (cm p).count i = 1)
    (hA : Agrees e s.vals) :
    Agrees e (caseB cm i par col s).vals := by
  unfold caseB
  cases par with
  | none => exact hA
  | some p =>
    cases hp : s.vals p col with
    | num pv =>
      cases hs : (scanCells s.vals col ((cm p).filter (fun j => decide (j ≠ i)))).1 with
      | some sq =>
        dsimp only
        rw [hp, hs]
        dsimp only
        intro j c qj hv
        rw [setVal] at hv
        by_cases hij : j = i ∧ c = col
        · obtain ⟨rfl, rfl⟩ := hij
          rw [if_pos ⟨rfl, rfl⟩] at hv
          injection hv with hv
          have hcnt := hpar p rfl
          have hpe : e p c = pv := hA p c pv hp
          have hsq : sq = (((cm p).filter (fun x => decide (x ≠ j))).map
              (fun k => e k c)).sum :=
            scanCells_sum s.vals c e (fun j' qj' h' => hA j' c qj' h') _ sq hs
          have hsum := ((count_one_perm j (cm p) hcnt).map (fun k => e k c)).sum_eq
          rw [List.map_cons, List.sum_cons] at hsum
          have hne : cm p ≠ [] := by
            intro hnil
            rw [hnil] at hcnt
            simp at hcnt
          rw [H1 p c hne, hsum, ← hsq] at hpe
          rw [← hv]
          linarith
        · rw [if_neg hij] at hv
          exact hA j c qj hv
      | none =>
        dsimp only
        rw [hp, hs]
        exact hA
    | redacted => dsimp only; rw [hp]; exact hA
    | blank => dsimp only; rw [hp]; exact hA

/-- A cell step preserves agreement with any assignment satisfying the
family-sum constraints. -/
theorem cellStep_agrees (cm : Nat → List Nat) (i : Nat) (par : Option Nat)
    (col : Nat) (s : EngineSt) (e : Nat → Nat → ℚ)
    (H1 : ∀ idx c, cm idx ≠ [] → e idx c = ((cm idx).map (fun k => e k c)).sum)
    (hpar : ∀ p, par = some p → (cm p).count i = 1)
    (hA : Agrees e s.vals) :
    Agrees e (cellStep cm i par col s).vals := by
  by_cases hm : isMissing (s.vals i col) = true
  · cases hcm : cm i with
    | nil =>
      have heq : cellStep cm i par col s = caseB cm i par col s := by
        unfold cellStep
        rw [if_pos hm, hcm]
      rw [heq]
      exact caseB_agrees cm i par col s e H1 hpar hA
    | cons k ks =>
      cases hs : (scanCells s.vals col (k :: ks)).1 with
      | some q =>
        have heq : (cellStep cm i par col s).vals
            = setVal s.vals i col (Val.num q) := by
          unfold cellStep
          rw [if_pos hm, hcm]
          dsimp only
          rw [hs]
        rw [heq]
        intro j c qj hv
        rw [setVal] at hv
        by_cases hij : j = i ∧ c = col
        · obtain ⟨rfl, rfl⟩ := hij
          rw [if_pos ⟨rfl, rfl⟩] at hv
          injection hv with hv
          have hsq : q = ((k :: ks).map (fun k' => e k' c)).sum :=
            scanCells_sum s.vals c e (fun j' qj' h' => hA j' c qj' h') _ q hs
          have hne : cm j ≠ [] := by rw [hcm]; simp
          rw [← hv, H1 j c hne, hcm, ← hsq]
        · rw [if_neg hij] at hv
          exact hA j c qj hv
      | none =>
        have heq : cellStep cm i par col s
            = caseB cm i par col { s with lastChild := (scanCells s.vals col (k :: ks)).2 } := by
          unfold cellStep
          rw [if_pos hm, hcm]
          dsimp only
          rw [hs]
        rw [heq]
        exact caseB_agrees cm i par col _ e H1 hpar hA
  · have heq : cellStep cm i par col s = s := by
      unfold cellStep
      rw [if_neg hm]
    rw [heq]
    exact hA

/-- A whole round preserves agreement with any assignment satisfying the
family-sum constraints, provided every row with a parent occurs exactly
once among that parent's children. -/
theorem runRound_agrees (rows : List Row) (cm : Nat → List Nat)
    (cols : List Nat) (s : EngineSt) (e : Nat → Nat → ℚ)
    (H1 : ∀ idx c, cm idx ≠ [] → e idx c = ((cm idx).map (fun k => e k c)).sum)
    (H3 : ∀ pr ∈ rows.enum, ∀ p, pr.2.parent = some p → (cm p).count pr.1 = 1)
    (hA : Agrees e s.vals) :
    Agrees e (runRound rows cm cols s).vals := by
  unfold runRound
  refine foldl_inv (fun t => Agrees e t.vals) _ rows.enum s
    (fun pr hpr t ht => ?_) hA
  unfold rowStep
  exact foldl_inv (fun t => Agrees e t.vals) _ cols t
    (fun col _ t' ht' =>
      cellStep_agrees cm pr.1 pr.2.parent col t' e H1 (H3 pr hpr) ht') ht

/-- The fixed-point loop preserves agreement. -/
theorem fillLoopAux_agrees (rows : List Row) (cm : Nat → List Nat)
    (cols : List Nat) (e : Nat → Nat → ℚ)
    (H1 : ∀ idx c, cm idx ≠ [] → e idx c = ((cm idx).map (fun k => e k c)).sum)
    (H3 : ∀ pr ∈ rows.enum, ∀ p, pr.2.parent = some p → (cm p).count pr.1 = 1) :
    ∀ (fuel : Nat) (s : EngineSt) (n : Nat), Agrees e s.vals →
    Agrees e (fillLoopAux rows cm cols fuel s n).1.vals
  | 0, s, n, hA => hA
  | fuel + 1, s, n, hA => by
    rw [fillLoopAux]
    have h1 : Agrees e (runRound rows cm cols { s with changed := false }).vals :=
      runRound_agrees rows cm cols { s with changed := false } e H1 H3 hA
    by_cases hc : (runRound rows cm cols { s with changed := false }).changed = false
        ∨ maxIterations ≤ n + 1
    · rw [if_pos hc]; exact h1
    · rw [if_neg hc]
      exact fillLoopAux_agrees rows cm cols e H1 H3 fuel _ (n + 1) h1

/-- A CASE B step that reports no change leaves the value table, fill
counter and log untouched, and the flag was already false. -/
theorem caseB_nochange (cm : Nat → List Nat) (i : Nat) (par : Option Nat)
    (col : Nat) (s : EngineSt)
    (h : (caseB cm i par col s).changed = false) :
    (caseB cm i par col s).vals = s.vals
    ∧ (caseB cm i par col s).filled = s.filled
    ∧ (caseB cm i par col s).log = s.log
    ∧ s.changed = false := by
  unfold caseB at h ⊢
  split at h
  · exact ⟨rfl, rfl, rfl, h⟩
  · split at h
    · split at h
      · simp at h
      · exact ⟨rfl, rfl, rfl, h⟩
    · exact ⟨rfl, rfl, rfl, h⟩

/-- A cell step that reports no change leaves the value table, fill
counter and log untouched, and the flag was already false. -/
theorem cellStep_nochange (cm : Nat → List Nat) (i : Nat) (par : Option Nat)
    (col : Nat) (s : EngineSt)
    (h : (cellStep cm i par col s).changed = false) :
    (cellStep cm i par col s).vals = s.vals
    ∧ (cellStep cm i par col s).filled = s.filled
    ∧ (cellStep cm i par col s).log = s.log
    ∧ s.changed = false := by
  by_cases hm : isMissing (s.vals i col) = true
  · cases hcm : cm i with
    | nil =>
      have e : cellStep cm i par col s = caseB cm i par col s := by
        unfold cellStep
        rw [if_pos hm, hcm]
      rw [e] at h ⊢
      exact caseB_nochange cm i par col s h
    | cons k ks =>
      cases hs : (scanCells s.vals col (k :: ks)).1 with
      | some q' =>
        have e : (cellStep cm i par col s).changed = true := by
          unfold cellStep
          rw [if_pos hm, hcm]
          dsimp only
          rw [hs]
        rw [e] at h
        exact absurd h (by simp)
      | none =>
        have e : cellStep cm i par col s
            = caseB cm i par col { s with lastChild := (scanCells s.vals col (k :: ks)).2 } := by
          unfold cellStep
          rw [if_pos hm, hcm]
          dsimp only
          rw [hs]
        rw [e] at h ⊢
        exact caseB_nochange cm i par col _ h
  · have e : cellStep cm i par col s = s := by
      unfold cellStep
      rw [if_neg hm]
    rw [e] at h ⊢
    exact ⟨rfl, rfl, rfl, h⟩

/-- A row step that reports no change leaves the value table, fill counter
and log untouched, and the flag was already false. -/
theorem rowStep_nochange (cm : Nat → List Nat) (i : Nat) (par : Option Nat) :
    ∀ (cols : List Nat) (s : EngineSt),
    (rowStep cm cols i par s).changed = false →
    (rowStep cm cols i par s).vals = s.vals
    ∧ (rowStep cm cols i par s).filled = s.filled
    ∧ (rowStep cm cols i par s).log = s.log
    ∧ s.changed = false
  | [], s, h => ⟨rfl, rfl, rfl, h⟩
  | col :: cols, s, h => by
    have hstep := rowStep_nochange cm i par cols (cellStep cm i par col s) h
    have hcell := cellStep_nochange cm i par col s hstep.2.2.2
    exact ⟨hstep.1.trans hcell.1, hstep.2.1.trans hcell.2.1,
      hstep.2.2.1.trans hcell.2.2.1, hcell.2.2.2⟩

/-- A full round that reports no change leaves the value table, fill
counter and log untouched, and the flag was already false. -/
theorem runRound_nochange (cm : Nat → List Nat) (cols : List Nat) :
    ∀ (l : List (Nat × Row)) (s : EngineSt),
    (l.foldl (fun t pr => rowStep cm cols pr.1 pr.2.parent t) s).changed = false →
    (l.foldl (fun t pr => rowStep cm cols pr.1 pr.2.parent t) s).vals = s.vals
    ∧ (l.foldl (fun t pr => rowStep cm cols pr.1 pr.2.parent t) s).filled = s.filled
    ∧ (l.foldl (fun t pr => rowStep cm cols pr.1 pr.2.parent t) s).log = s.log
    ∧ s.changed = false
  | [], s, h => ⟨rfl, rfl, rfl, h⟩
  | pr :: l, s, h => by
    have hrest := runRound_nochange cm cols l (rowStep cm cols pr.1 pr.2.parent s) h
    have hrow := rowStep_nochange cm pr.1 pr.2.parent cols s hrest.2.2.2
    exact ⟨hrest.1.trans hrow.1, hrest.2.1.trans hrow.2.1,
      hrest.2.2.1.trans hrow.2.2.1, hrow.2.2.2⟩

/-- A value table agreeing with a constraint-satisfying assignment passes
the family check at every row with children. -/
theorem familyOK_of_agrees (cm : Nat → List Nat) (w : Vals)
    (e : Nat → Nat → ℚ) (i col : Nat)
    (H1 : ∀ idx c, cm idx ≠ [] → e idx c = ((cm idx).map (fun k => e k c)).sum)
    (hAg : Agrees e w) (hne : cm i ≠ []) :
    familyOK cm w i col = true := by
  unfold familyOK
  split
  · split
    · next q hv hall =>
      rw [decide_eq_true_iff]
      have hmapeq : (cm i).map (fun k => numOf (w k col))
          = (cm i).map (fun k => e k col) := by
        apply List.map_congr_left
        intro k hk
        have hkk := (List.all_eq_true.mp hall) k hk
        cases hwk : w k col with
        | num qk => exact (hAg k col qk hwk).symm
        | redacted => rw [hwk] at hkk; exact absurd hkk (by simp [isMissing])
        | blank => rw [hwk] at hkk; exact absurd hkk (by simp [isMissing])
      rw [hmapeq, ← H1 i col hne]
      exact (hAg i col q hv).symm
    · rfl
  · rfl

/-- Membership in the dedup accumulator. -/
theorem mem_firstDedupAux :
    ∀ (l seen : List Nat) (x : Nat),
    x ∈ firstDedupAux seen l ↔ x ∈ l ∧ x ∉ seen
  | [], seen, x => by simp [firstDedupAux]
  | a :: l, seen, x => by
    unfold firstDedupAux
    by_cases ha : a ∈ seen
    · rw [if_pos ha, mem_firstDedupAux l seen x]
      constructor
      · exact fun h => ⟨List.mem_cons_of_mem a h.1, h.2⟩
      · rintro ⟨h1, h2⟩
        rcases List.mem_cons.mp h1 with rfl | h1
        · exact absurd ha h2
        · exact ⟨h1, h2⟩
    · rw [if_neg ha]
      constructor
      · intro h
        rcases List.mem_cons.mp h with rfl | h
        · exact ⟨List.mem_cons_self _ _, ha⟩
        · have := (mem_firstDedupAux l (a :: seen) x).mp h
          exact ⟨List.mem_cons_of_mem a this.1,
            fun hx => this.2 (List.mem_cons_of_mem a hx)⟩
      · rintro ⟨h1, h2⟩
        rcases List.mem_cons.mp h1 with rfl | h1
        · exact List.mem_cons_self _ _
        · by_cases hxa : x = a
          · subst hxa; exact List.mem_cons_self _ _
          · exact List.mem_cons_of_mem a ((mem_firstDedupAux l (a :: seen) x).mpr
              ⟨h1, fun hx => (List.mem_cons.mp hx).elim hxa h2⟩)

/-- The dedup accumulator yields no duplicates. -/
theorem nodup_firstDedupAux :
    ∀ (l seen : List Nat), (firstDedupAux seen l).Nodup
  | [], seen => List.nodup_nil
  | a :: l, seen => by
    unfold firstDedupAux
    by_cases ha : a ∈ seen
    · rw [if_pos ha]; exact nodup_firstDedupAux l seen
    · rw [if_neg ha]
      refine List.Nodup.cons ?_ (nodup_firstDedupAux l (a :: seen))
      intro hmem
      exact ((mem_firstDedupAux l (a :: seen) a).mp hmem).2 (List.mem_cons_self _ _)

/-- First-occurrence dedup keeps exactly the members. -/
theorem mem_firstDedup (l : List Nat) (x : Nat) :
    x ∈ firstDedup l ↔ x ∈ l := by
  rw [firstDedup, mem_firstDedupAux]
  simp

/-- First-occurrence dedup has no duplicates. -/
theorem nodup_firstDedup (l : List Nat) : (firstDedup l).Nodup :=
  nodup_firstDedupAux l []

/-- Specification of the grouped (child, parent) pairs. -/
theorem imputeKids_spec (rows : List Row) (cl pl : Int) :
    ∀ pr ∈ imputeKids rows cl pl,
    ∃ r prow, rows.get? pr.1 = some r ∧ r.level = cl ∧ r.parent = some pr.2
      ∧ rows.get? pr.2 = some prow ∧ prow.level = pl := by
  intro pr hpr
  unfold imputeKids at hpr
  rw [List.mem_filterMap] at hpr
  obtain ⟨a, ha, hfa⟩ := hpr
  have hget : rows.get? a.1 = some a.2 := by
    rw [List.get?_eq_getElem?]
    exact List.mem_enum_iff_getElem?.mp ha
  split at hfa
  · rename_i hlev
    split at hfa
    · rename_i pq hpar
      split at hfa
      · rename_i prow hgp
        split at hfa
        · rename_i hlp
          injection hfa with hfa
          rw [← hfa]
          exact ⟨a.2, prow, hget, hlev, hpar, hgp, hlp⟩
        · exact absurd hfa (by simp)
      · exact absurd hfa (by simp)
    · exact absurd hfa (by simp)
  · exact absurd hfa (by simp)

/-- Projecting first components through a first-component-preserving
filterMap yields a sublist of the original first components. -/
theorem sublist_fst_filterMap {β γ : Type _} (f : Nat × β → Option (Nat × γ))
    (hf : ∀ a b, f a = some b → b.1 = a.1) :
    ∀ l : List (Nat × β),
    ((l.filterMap f).map Prod.fst).Sublist (l.map Prod.fst)
  | [] => by simp
  | a :: l => by
    rw [List.filterMap_cons]
    cases hfa : f a with
    | none =>
      rw [List.map_cons]
      exact (sublist_fst_filterMap f hf l).cons a.1
    | some b =>
      rw [List.map_cons, List.map_cons, hf a b hfa]
      exact (sublist_fst_filterMap f hf l).cons₂ a.1

/-- Distinct child positions: each position appears at most once among the
grouped pairs. -/
theorem imputeKids_fst_nodup (rows : List Row) (cl pl : Int) :
    ((imputeKids rows cl pl).map Prod.fst).Nodup := by
  refine List.Sublist.nodup ?_ (List.nodup_enum_map_fst rows)
  unfold imputeKids
  refine sublist_fst_filterMap _ ?_ rows.enum
  intro a b h
  split at h
  · split at h
    · split at h
      · split at h
        · injection h with h; rw [← h]
        · exact absurd h (by simp)
      · exact absurd h (by simp)
    · exact absurd h (by simp)
  · exact absurd h (by simp)

/-- A child position determines its parent among the grouped pairs. -/
theorem imputeKids_fst_unique (rows : List Row) (cl pl : Int) {c p q : Nat}
    (h1 : (c, p) ∈ imputeKids rows cl pl) (h2 : (c, q) ∈ imputeKids rows cl pl) :
    p = q := by
  have := List.inj_on_of_nodup_map (imputeKids_fst_nodup rows cl pl) h1 h2 rfl
  injection this

/-- Membership in a parent's child group. -/
theorem mem_groupChildren (rows : List Row) (cl pl : Int) (p c : Nat) :
    c ∈ groupChildren rows cl pl p ↔ (c, p) ∈ imputeKids rows cl pl := by
  unfold groupChildren
  rw [List.mem_map]
  constructor
  · rintro ⟨pr, hpr, rfl⟩
    have hm := List.mem_filter.mp hpr
    have h2 : pr.2 = p := by simpa using hm.2
    have : pr = (pr.1, p) := by rw [← h2]
    rw [← this]
    exact hm.1
  · intro h
    exact ⟨(c, p), List.mem_filter.mpr ⟨h, by simp⟩, rfl⟩

/-- A group parent is never itself a grouped child position (the two
levels differ). -/
theorem parent_not_kid (rows : List Row) (cl pl : Int) (hlev : pl ≠ cl)
    {p : Nat} (hp : p ∈ imputeParents rows cl pl) :
    ∀ q, (p, q) ∉ imputeKids rows cl pl := by
  intro q hmem
  have hp' := (mem_firstDedup _ _).mp hp
  rw [List.mem_map] at hp'
  obtain ⟨pr0, hpr0, hsnd⟩ := hp'
  obtain ⟨r0, prow0, _, _, _, hgp0, hlp0⟩ := imputeKids_spec rows cl pl pr0 hpr0
  obtain ⟨r1, prow1, hg1, hl1, _, _, _⟩ := imputeKids_spec rows cl pl (p, q) hmem
  rw [hsnd] at hgp0
  rw [hg1] at hgp0
  injection hgp0 with hgp0
  rw [← hgp0] at hlp0
  rw [hl1] at hlp0
  exact hlev hlp0.symm

/-- A write fold over a membership list sets every member's cell. -/
theorem foldl_setVal_mem (col : Nat) (x : Val) :
    ∀ (M : List Nat) (v0 : Vals) (c : Nat), c ∈ M →
    (M.foldl (fun v' c' => setVal v' c' col x) v0) c col = x
  | [], _, c, h => absurd h (List.not_mem_nil c)
  | a :: M, v0, c, h => by
    rw [List.foldl_cons]
    by_cases hM : c ∈ M
    · exact foldl_setVal_mem col x M (setVal v0 a col x) c hM
    · have hca : c = a := by
        rcases List.mem_cons.mp h with h | h
        · exact h
        · exact absurd h hM
      subst hca
      rw [foldl_setVal_ne col x c col M (setVal v0 c col x)
        (fun m hm => fun hcm => hM (hcm.1 ▸ hm))]
      rw [setVal]
      simp

/-- A group step leaves every cell outside its children (at the working
column) untouched. -/
theorem imputeGroup_untouched (cl : Int) (col : Nat) (p : Nat)
    (children : List Nat) (st : Vals × List LogEntry) (j c' : Nat)
    (hj : ∀ m ∈ children, ¬(j = m ∧ c' = col)) :
    (imputeGroup cl col p children st).1 j c' = st.1 j c' := by
  unfold imputeGroup
  cases hp : st.1 p col with
  | num pv =>
    simp only
    by_cases he : (children.filter (fun c => isMissing (st.1 c col))).isEmpty
    · rw [if_pos he]
    · rw [if_neg he]
      simp only
      exact foldl_setVal_ne col _ j c' _ st.1
        (fun m hm => hj m (List.mem_filter.mp hm).1)
  | redacted => rfl
  | blank => rfl

/-- Result of one group step when the incoming state agrees with a
reference table on the parent and all its children: with a known parent
value and at least one missing child, every missing child receives the
equal split; with an unknown parent, nothing in the state changes. -/
theorem imputeGroup_result (cl : Int) (col : Nat) (p : Nat) (C : List Nat)
    (st : Vals × List LogEntry) (v : Vals)
    (hagreeP : st.1 p col = v p col)
    (hagreeC : ∀ c ∈ C, st.1 c col = v c col) :
    (∀ pv, v p col = Val.num pv →
      C.filter (fun c => isMissing (v c col)) ≠ [] →
      ∀ c ∈ C.filter (fun c => isMissing (v c col)),
        (imputeGroup cl col p C st).1 c col
          = Val.num ((pv - (C.filterMap (fun c' => toNumOpt (v c' col))).sum)
              / ((C.filter (fun c => isMissing (v c col))).length : ℚ)))
    ∧ (isMissing (v p col) = true →
        ∀ c ∈ C, (imputeGroup cl col p C st).1 c col = st.1 c col) := by
  have hfiltereq : C.filter (fun c => isMissing (st.1 c col))
      = C.filter (fun c => isMissing (v c col)) :=
    List.filter_congr (fun c hc => by rw [hagreeC c hc])
  have hfmeq : C.filterMap (fun c => toNumOpt (st.1 c col))
      = C.filterMap (fun c => toNumOpt (v c col)) :=
    List.filterMap_congr (fun c hc => by rw [hagreeC c hc])
  constructor
  · intro pv hpv hne c hc
    have hie : (C.filter (fun c => isMissing (v c col))).isEmpty = false := by
      cases hfe : C.filter (fun c => isMissing (v c col)) with
      | nil => exact absurd hfe hne
      | cons a l => rfl
    unfold imputeGroup
    rw [hagreeP, hpv]
    simp only
    rw [hfiltereq, hfmeq, hie]
    simp only [Bool.false_eq_true, if_false]
    exact foldl_setVal_mem col _ _ st.1 c hc
  · intro hm c _
    unfold imputeGroup
    rw [hagreeP]
    cases hv : v p col with
    | num q => rw [hv] at hm; exact absurd hm (by simp [isMissing])
    | redacted => rfl
    | blank => rfl

/-- Round count bounds of the fixed-point loop. -/
theorem fillLoopAux_bound (rows : List Row) (cm : Nat → List Nat)
    (cols : List Nat) :
    ∀ (fuel : Nat) (s : EngineSt) (n : Nat),
    fuel + n = maxIterations → n < maxIterations →
    n + 1 ≤ (fillLoopAux rows cm cols fuel s n).2
    ∧ (fillLoopAux rows cm cols fuel s n).2 ≤ maxIterations
    ∧ ((fillLoopAux rows cm cols fuel s n).1.changed = false
       ∨ (fillLoopAux rows cm cols fuel s n).2 = maxIterations)
  | 0, s, n, hf, hn => absurd hf (by omega)
  | fuel + 1, s, n, hf, hn => by
    rw [fillLoopAux]
    by_cases hc : (runRound rows cm cols { s with changed := false }).changed = false
        ∨ maxIterations ≤ n + 1
    · rw [if_pos hc]
      refine ⟨le_refl _, by omega, ?_⟩
      rcases hc with hc | hc
      · exact Or.inl hc
      · exact Or.inr (by omega)
    · rw [if_neg hc]
      have hn' : n + 1 < maxIterations := by
        rcases not_or.mp hc with ⟨_, h2⟩
        omega
      have ih := fillLoopAux_bound rows cm cols fuel
        (runRound rows cm cols { s with changed := false }) (n + 1) (by omega) hn'
      exact ⟨by omega, ih.2.1, ih.2.2⟩

/-! # Claim theorems -/

/-- C1 counterexample: on already-known but inconsistent input data
(grand total 10, sole child 3, nothing missing) the fill loop reaches its
fixed point in one round and the claimed invariant `value = sum of
children` is false for the root row. -/
theorem c1_counterexample :
    (buildHierarchy labelsIncons).cm 0 = [1]
    ∧ (fillEngine (buildHierarchy labelsIncons).rows (buildHierarchy labelsIncons).cm
        [0] vIncons).2 = 1
    ∧ (fillEngine (buildHierarchy labelsIncons).rows (buildHierarchy labelsIncons).cm
        [0] vIncons).1.vals 0 0 = .num 10
    ∧ (fillEngine (buildHierarchy labelsIncons).rows (buildHierarchy labelsIncons).cm
        [0] vIncons).1.vals 1 0 = .num 3
    ∧ checkSumInv (buildHierarchy labelsIncons).rows (buildHierarchy labelsIncons).cm
        [0] (fillEngine (buildHierarchy labelsIncons).rows
          (buildHierarchy labelsIncons).cm [0] vIncons).1.vals = false := by
  refine ⟨by decide, rfl, rfl, rfl, ?_⟩
  have hne : ¬ ((10 : ℚ) = 3 + 0) := by norm_num
  have hshape : checkSumInv (buildHierarchy labelsIncons).rows
      (buildHierarchy labelsIncons).cm [0]
      (fillEngine (buildHierarchy labelsIncons).rows
        (buildHierarchy labelsIncons).cm [0] vIncons).1.vals
      = ((decide ((10 : ℚ) = 3 + 0) && true) && (true && true)) := rfl
  rw [hshape, decide_eq_false hne]
  rfl

/-- C1 amended: if the initially known values are consistent — some full
numeric assignment satisfies every family-sum constraint and agrees with
every known input cell — and every row with a parent occurs exactly once
among that parent's children, then at the fill engine's fixed point every
row with children whose value and children's values are all known
satisfies value = exact sum of children, in every time column. -/
theorem c1_amended_sum_invariant (rows : List Row) (cm : Nat → List Nat)
    (cols : List Nat) (v : Vals) (e : Nat → Nat → ℚ)
    (H1 : ∀ idx c, cm idx ≠ [] → e idx c = ((cm idx).map (fun k => e k c)).sum)
    (H2 : ∀ i c q, v i c = Val.num q → e i c = q)
    (H3 : ∀ pr ∈ rows.enum, ∀ p, pr.2.parent = some p → (cm p).count pr.1 = 1) :
    checkSumInv rows cm cols (fillEngine rows cm cols v).1.vals = true := by
  have hAg : Agrees e (fillEngine rows cm cols v).1.vals :=
    fillLoopAux_agrees rows cm cols e H1 H3 maxIterations ⟨v, false, 0, [], []⟩ 0 H2
  rw [checkSumInv, List.all_eq_true]
  intro pr _
  by_cases hemp : (cm pr.1).isEmpty
  · rw [if_pos hemp]
  · rw [if_neg hemp]
    rw [List.all_eq_true]
    intro col _
    have hne : cm pr.1 ≠ [] := by
      intro h
      rw [h] at hemp
      exact hemp rfl
    exact familyOK_of_agrees cm _ e pr.1 col H1 hAg hne

/-- C1 witness: on consistent input (grand total missing, sole child 3,
constant assignment 3) the engine fills the total and the invariant check
passes. -/
theorem c1_witness :
    checkSumInv rowsTw cmTw [0] (fillEngine rowsTw cmTw [0] vTw).1.vals = true := by
  refine c1_amended_sum_invariant rowsTw cmTw [0] vTw (fun _ _ => 3) ?_ ?_ ?_
  · intro idx c hne
    by_cases h0 : idx = 0
    · subst h0
      show (3 : ℚ) = ((cmTw 0).map (fun _ => (3 : ℚ))).sum
      norm_num [cmTw]
    · exact absurd (by simp [cmTw, h0] : cmTw idx = []) hne
  · intro i c q h
    have h' : vTw i c = Val.num q := h
    unfold vTw at h'
    split at h'
    all_goals first
      | injection h' with h2
      | exact absurd h' (by simp)
  · intro pr hpr p hp
    have he : rowsTw.enum = [(0, ⟨"TOTAL".data, -1, none, none, none⟩),
        (1, ⟨"Agricultura".data, 0, none, none, some 0⟩)] := by decide
    rw [he] at hpr
    simp only [List.mem_cons, List.not_mem_nil, or_false] at hpr
    rcases hpr with rfl | rfl
    · exact absurd hp (by simp)
    · have hp0 : some 0 = some p := hp
      injection hp0 with hp0
      rw [← hp0]
      decide

/-- C2: the first log entry of method `parent_minus_siblings` on the
`labelsC2` run records as consumed cells the stale child list
`[(row 3, val 5)]` from the failed Rule A attempt — row 3 is a child of
the filled row 2, not a sibling — while the sibling actually used by
Rule B was row 1 with value 60; the recorded parent value minus the sum
of the recorded cells (100 - 5) differs from the computed value 40. -/
theorem c2_log_entry_bug :
    (fillEngine (buildHierarchy labelsC2).rows (buildHierarchy labelsC2).cm
        [0] vC2).1.log.get? 0
      = some ⟨2, 0, .parentMinusSiblings, some ⟨0, 0, 100⟩, [⟨3, 0, 5⟩], 40⟩
    ∧ ((buildHierarchy labelsC2).cm 0).filter (fun j => decide (j ≠ 2)) = [1]
    ∧ vC2 1 0 = .num 60
    ∧ 3 ∈ (buildHierarchy labelsC2).cm 2
    ∧ ¬ ((100 : ℚ) - 5 = 40) := by
  have h : (fillEngine (buildHierarchy labelsC2).rows (buildHierarchy labelsC2).cm
      [0] vC2).1.log.get? 0
      = some ⟨2, 0, .parentMinusSiblings, some ⟨0, 0, 100⟩, [⟨3, 0, 5⟩],
          (100 : ℚ) - (60 + 0)⟩ := rfl
  have e : ((100 : ℚ) - (60 + 0)) = 40 := by norm_num
  rw [e] at h
  exact ⟨h, by decide, rfl, by decide, by norm_num⟩

/-- C3 counterexample: with a level-0 row preceding the TOTAL row, the
hierarchy pass leaves it parentless although a level `-1` row exists, the
fill engine therefore runs with that row parentless (and cannot fill it),
and only the retroactive pass — which the source runs after the fill
loop — attaches it to the grand total. -/
theorem c3_counterexample :
    ((buildHierarchy labelsC3).rows.get? 0).map Row.parent = some none
    ∧ ((buildHierarchy labelsC3).rows.get? 0).map Row.level = some 0
    ∧ ((buildHierarchy labelsC3).rows.get? 1).map Row.level = some (-1)
    ∧ (fillEngine (buildHierarchy labelsC3).rows (buildHierarchy labelsC3).cm
        [0] vC3).1.vals 0 0 = .blank
    ∧ (((retroAttach (buildHierarchy labelsC3).rows
          (buildHierarchy labelsC3).cm).1.get? 0).map Row.parent)
        = some (some 1) := by
  decide

/-- C8: the label "31-33 Industrias manufactureras" parses to level 2 with
special range {"31","32","33"}, and the subsequent row "334 Computadoras"
(level 3, code "334") attaches as its child while it is the most recent
level-2 row, because "33" is in the parent's special range. -/
theorem c8_round_trip :
    parseCategory "31-33 Industrias manufactureras".data
      = ⟨2, none, some [['3','1'], ['3','2'], ['3','3']]⟩
    ∧ parseCategory "334 Computadoras".data = ⟨3, some ['3','3','4'], none⟩
    ∧ ((buildHierarchy ["31-33 Industrias manufactureras".data,
          "334 Computadoras".data]).rows.get? 1).map Row.parent = some (some 0)
    ∧ (buildHierarchy ["31-33 Industrias manufactureras".data,
          "334 Computadoras".data]).lastSeen 2 = some 0
    ∧ ['3','3'] ∈ [['3','1'], ['3','2'], ['3','3']]
    ∧ (buildHierarchy ["31-33 Industrias manufactureras".data,
          "334 Computadoras".data]).cm 0 = [1] := by
  decide

/-- C4: in one `impute_level` call (for distinct parent/child levels, as
in the root-to-leaf driver), for every parent group: if the parent's value
is known and at least one grouped child is missing, every missing child's
final value is the parent value minus the sum of the known children's
values, divided by the number of missing children; if the parent's value
is unknown, every grouped child keeps its value. -/
theorem c4_impute_level (rows : List Row) (pl cl : Int) (col : Nat) (v : Vals)
    (log : List LogEntry) (p : Nat) (hlev : pl ≠ cl)
    (hp : p ∈ imputeParents rows cl pl) :
    (∀ pv, v p col = Val.num pv →
      (groupChildren rows cl pl p).filter (fun c => isMissing (v c col)) ≠ [] →
      ∀ c ∈ (groupChildren rows cl pl p).filter (fun c => isMissing (v c col)),
        (imputeLevel rows pl cl col v log).1 c col
          = Val.num ((pv - ((groupChildren rows cl pl p).filterMap
                (fun c' => toNumOpt (v c' col))).sum)
              / (((groupChildren rows cl pl p).filter
                  (fun c => isMissing (v c col))).length : ℚ)))
    ∧ (isMissing (v p col) = true →
       ∀ c ∈ groupChildren rows cl pl p,
         (imputeLevel rows pl cl col v log).1 c col = v c col) := by
  obtain ⟨pre, post, hsplit⟩ := List.append_of_mem hp
  have hnd : (imputeParents rows cl pl).Nodup := nodup_firstDedup _
  rw [hsplit, List.nodup_append] at hnd
  have hppre : p ∉ pre := fun hmem => (hnd.2.2 hmem) (List.mem_cons_self p post)
  have hppost : p ∉ post := (List.nodup_cons.mp hnd.2.1).1
  have hdisj : ∀ q, q ∈ imputeParents rows cl pl → q ≠ p →
      ∀ j, (j = p ∨ j ∈ groupChildren rows cl pl p) →
      ∀ m ∈ groupChildren rows cl pl q, ¬(j = m ∧ col = col) := by
    intro q _ hqp j hj m hm hcontra
    obtain ⟨hjm, _⟩ := hcontra
    have hmq : (m, q) ∈ imputeKids rows cl pl :=
      (mem_groupChildren rows cl pl q m).mp hm
    rcases hj with rfl | hj
    · rw [← hjm] at hmq
      exact parent_not_kid rows cl pl hlev hp q hmq
    · have hjp : (j, p) ∈ imputeKids rows cl pl :=
        (mem_groupChildren rows cl pl p j).mp hj
      rw [← hjm] at hmq
      exact hqp (imputeKids_fst_unique rows cl pl hmq hjp)
  unfold imputeLevel
  rw [hsplit, List.foldl_append, List.foldl_cons]
  have hpre : ∀ j, (j = p ∨ j ∈ groupChildren rows cl pl p) →
      (pre.foldl (fun st q => imputeGroup cl col q (groupChildren rows cl pl q) st)
        (v, log)).1 j col = v j col := by
    intro j hj
    refine foldl_inv (fun st => st.1 j col = v j col) _ pre (v, log)
      (fun q hq t ht => ?_) rfl
    have hqmem : q ∈ imputeParents rows cl pl := by
      rw [hsplit]; exact List.mem_append_left _ hq
    have hqp : q ≠ p := fun h => hppre (h ▸ hq)
    show (imputeGroup cl col q (groupChildren rows cl pl q) t).1 j col = v j col
    rw [imputeGroup_untouched cl col q _ t j col (hdisj q hqmem hqp j hj)]
    exact ht
  have hres := imputeGroup_result cl col p (groupChildren rows cl pl p)
    (pre.foldl (fun st q => imputeGroup cl col q (groupChildren rows cl pl q) st)
      (v, log)) v (hpre p (Or.inl rfl)) (fun c' hc' => hpre c' (Or.inr hc'))
  have hpost : ∀ j, (j = p ∨ j ∈ groupChildren rows cl pl p) →
      (post.foldl (fun st q => imputeGroup cl col q (groupChildren rows cl pl q) st)
        (imputeGroup cl col p (groupChildren rows cl pl p)
          (pre.foldl (fun st q => imputeGroup cl col q (groupChildren rows cl pl q) st)
            (v, log)))).1 j col
      = (imputeGroup cl col p (groupChildren rows cl pl p)
          (pre.foldl (fun st q => imputeGroup cl col q (groupChildren rows cl pl q) st)
            (v, log))).1 j col := by
    intro j hj
    refine foldl_inv (fun (st : Vals × List LogEntry) => st.1 j col
        = (imputeGroup cl col p (groupChildren rows cl pl p)
            (pre.foldl (fun st q => imputeGroup cl col q (groupChildren rows cl pl q) st)
              (v, log))).1 j col)
      _ post _ (fun q hq t ht => ?_) rfl
    have hqmem : q ∈ imputeParents rows cl pl := by
      rw [hsplit]
      exact List.mem_append_right _ (List.mem_cons_of_mem _ hq)
    have hqp : q ≠ p := fun h => hppost (h ▸ hq)
    show (imputeGroup cl col q (groupChildren rows cl pl q) t).1 j col = _
    rw [imputeGroup_untouched cl col q _ t j col (hdisj q hqmem hqp j hj)]
    exact ht
  constructor
  · intro pv hpv hne c hc
    have hcC : c ∈ groupChildren rows cl pl p := List.mem_of_mem_filter hc
    rw [hpost c (Or.inr hcC)]
    exact hres.1 pv hpv hne c hc
  · intro hm c hcC
    rw [hpost c (Or.inr hcC)]
    rw [hres.2 hm c hcC]
    exact hpre c (Or.inr hcC)

/-- C4 witness: the spec's two mean-imputation examples — parent 100 with
children {30, 20, missing} yields 50 for the missing child; parent 100
with children {missing, missing} yields 50 for each. -/
theorem c4_witness :
    (imputeLevel rowsMean 0 2 0 vMean []).1 3 0 = Val.num 50
    ∧ (imputeLevel rowsMean2 0 2 0 vMean2 []).1 1 0 = Val.num 50
    ∧ (imputeLevel rowsMean2 0 2 0 vMean2 []).1 2 0 = Val.num 50 := by
  refine ⟨?_, ?_, ?_⟩
  · have h := (c4_impute_level rowsMean 0 2 0 vMean [] 0 (by decide)
      (by decide)).1 100 rfl (by decide) 3 (by decide)
    rw [h]
    congr 1
    have e1 : (groupChildren rowsMean 2 0 0).filterMap
        (fun c' => toNumOpt (vMean c' 0)) = [30, 20] := by decide
    have e2 : (groupChildren rowsMean 2 0 0).filter
        (fun c => isMissing (vMean c 0)) = [3] := by decide
    rw [e1, e2]
    norm_num
  · have h := (c4_impute_level rowsMean2 0 2 0 vMean2 [] 0 (by decide)
      (by decide)).1 100 rfl (by decide) 1 (by decide)
    rw [h]
    congr 1
    have e1 : (groupChildren rowsMean2 2 0 0).filterMap
        (fun c' => toNumOpt (vMean2 c' 0)) = [] := by decide
    have e2 : (groupChildren rowsMean2 2 0 0).filter
        (fun c => isMissing (vMean2 c 0)) = [1, 2] := by decide
    rw [e1, e2]
    norm_num
  · have h := (c4_impute_level rowsMean2 0 2 0 vMean2 [] 0 (by decide)
      (by decide)).1 100 rfl (by decide) 2 (by decide)
    rw [h]
    congr 1
    have e1 : (groupChildren rowsMean2 2 0 0).filterMap
        (fun c' => toNumOpt (vMean2 c' 0)) = [] := by decide
    have e2 : (groupChildren rowsMean2 2 0 0).filter
        (fun c => isMissing (vMean2 c 0)) = [1, 2] := by decide
    rw [e1, e2]
    norm_num

/-- C5: the category parser implements, case by case in order: the TOTAL
branch; the no-digit branch; the hyphenated 2-digit range branch, whose
special range is exactly the 2-digit codes from XX to YY inclusive; the
"XX y YY" branch, whose special range is exactly {XX, YY}; the leading
digit-run branch for runs of length 2, 3 and at least 4; and the fallback
when digits exist but not at the very start. -/
theorem c5_parse_category_cases (cs : List Char) :
    ((strip cs).map Char.toUpper = "TOTAL".data →
      parseCategory cs = ⟨-1, none, none⟩)
    ∧ ((strip cs).map Char.toUpper ≠ "TOTAL".data →
       cs.any Char.isDigit = false →
       parseCategory cs = ⟨0, none, none⟩)
    ∧ (∀ d1 d2 d3 d4 : Char, ∀ w1 w2 rest : List Char,
       (strip cs).map Char.toUpper ≠ "TOTAL".data →
       strip cs = d1 :: d2 :: (w1 ++ '-' :: (w2 ++ d3 :: d4 :: rest)) →
       d1.isDigit = true → d2.isDigit = true → d3.isDigit = true →
       d4.isDigit = true →
       (∀ c ∈ w1, isPySpace c = true) → (∀ c ∈ w2, isPySpace c = true) →
       ∃ r, parseCategory cs = ⟨2, none, some r⟩
         ∧ ∀ s, s ∈ r ↔ ∃ n, dval d1 d2 ≤ n ∧ n ≤ dval d3 d4 ∧ s = twoDigitStr n)
    ∧ (∀ d1 d2 d3 d4 yc : Char, ∀ w1 w2 rest : List Char,
       (strip cs).map Char.toUpper ≠ "TOTAL".data →
       strip cs = d1 :: d2 :: (w1 ++ yc :: (w2 ++ d3 :: d4 :: rest)) →
       (yc = 'y' ∨ yc = 'Y') →
       d1.isDigit = true → d2.isDigit = true → d3.isDigit = true →
       d4.isDigit = true →
       (∀ c ∈ w1, isPySpace c = true) → (∀ c ∈ w2, isPySpace c = true) →
       ∃ r, parseCategory cs = ⟨2, none, some r⟩
         ∧ ∀ s, s ∈ r ↔ (s = [d1, d2] ∨ s = [d3, d4]))
    ∧ (∀ ds rest : List Char,
       (strip cs).map Char.toUpper ≠ "TOTAL".data →
       matchHyphen (strip cs) = none → matchY (strip cs) = none →
       strip cs = ds ++ rest →
       (∀ c ∈ ds, c.isDigit = true) →
       (∀ c, rest.head? = some c → c.isDigit = false) →
       ds ≠ [] →
       ((ds.length = 2 → parseCategory cs = ⟨2, some ds, none⟩)
        ∧ (ds.length = 3 → parseCategory cs = ⟨3, some ds, none⟩)
        ∧ (4 ≤ ds.length → parseCategory cs = ⟨4, some (ds.take 4), none⟩)))
    ∧ ((strip cs).map Char.toUpper ≠ "TOTAL".data →
       cs.any Char.isDigit = true →
       (∀ c, (strip cs).head? = some c → c.isDigit = false) →
       parseCategory cs = ⟨0, none, none⟩) := by
  refine ⟨?_, ?_, ?_, ?_, ?_, ?_⟩
  · intro hT
    simp only [parseCategory]
    rw [if_pos hT]
  · intro hT hD
    have hB : (strip cs).any Char.isDigit = false := by
      rw [strip_any_digit]; exact hD
    simp only [parseCategory]
    rw [if_neg hT, if_pos hB]
  · intro d1 d2 d3 d4 w1 w2 rest hT hshape h1 h2 h3 h4 hw1 hw2
    have hany : (strip cs).any Char.isDigit = true := by
      rw [hshape, List.any_cons, h1]; rfl
    have hH : matchHyphen (strip cs) = some (dval d1 d2, dval d3 d4) := by
      rw [hshape]; exact matchHyphen_of_shape d1 d2 d3 d4 w1 w2 rest h1 h2 h3 h4 hw1 hw2
    refine ⟨rangeCodes (dval d1 d2) (dval d3 d4), ?_, fun s => mem_rangeCodes s _ _⟩
    simp only [parseCategory]
    rw [if_neg hT, if_neg (by simp [hany]), hH]
  · intro d1 d2 d3 d4 yc w1 w2 rest hT hshape hy h1 h2 h3 h4 hw1 hw2
    have hany : (strip cs).any Char.isDigit = true := by
      rw [hshape, List.any_cons, h1]; rfl
    have hH : matchHyphen (strip cs) = none := by
      rw [hshape]; exact matchHyphen_of_y_shape d1 d2 d3 d4 yc w1 w2 rest hy hw1
    have hY : matchY (strip cs) = some ([d1, d2], [d3, d4]) := by
      rw [hshape]; exact matchY_of_shape d1 d2 d3 d4 yc w1 w2 rest h1 h2 h3 h4 hy hw1 hw2
    refine ⟨[[d1, d2], [d3, d4]], ?_, fun s => by simp⟩
    simp only [parseCategory]
    rw [if_neg hT, if_neg (by simp [hany]), hH, hY]
  · intro ds rest hT hH hY hshape hd hr hne
    have hts : (strip cs).takeWhile Char.isDigit = ds := by
      rw [hshape]; exact takeWhile_digit_run ds rest hd hr
    have hany : (strip cs).any Char.isDigit = true := by
      cases ds with
      | nil => exact absurd rfl hne
      | cons c ds' =>
        rw [hshape, List.cons_append, List.any_cons,
          hd c (List.mem_cons_self _ _)]
        rfl
    refine ⟨?_, ?_, ?_⟩ <;> intro hlen <;> simp only [parseCategory] <;>
      rw [if_neg hT, if_neg (by simp [hany]), hH, hY, hts]
    · rw [if_pos hlen]
    · rw [if_neg (by omega), if_pos hlen]
    · rw [if_neg (by omega), if_neg (by omega), if_pos hlen]
  · intro hT hD hhead
    have hH := matchHyphen_head_not_digit (strip cs) hhead
    have hY := matchY_head_not_digit (strip cs) hhead
    have hts : (strip cs).takeWhile Char.isDigit = [] := by
      cases hsc : strip cs with
      | nil => rfl
      | cons c r =>
        refine List.takeWhile_cons_of_neg ?_
        have := hhead c (by rw [hsc]; rfl)
        simp [this]
    have hany : (strip cs).any Char.isDigit = true := by
      rw [strip_any_digit]; exact hD
    simp only [parseCategory]
    rw [if_neg hT, if_neg (by simp [hany]), hH, hY, hts]
    simp

/-- C5 witness: the TOTAL branch, the hyphen-range branch and the 3-digit
branch at their concrete spec examples. -/
theorem c5_witness :
    parseCategory "TOTAL".data = ⟨-1, none, none⟩
    ∧ (∃ r, parseCategory "31-33 Industrias manufactureras".data = ⟨2, none, some r⟩
        ∧ ∀ s, s ∈ r ↔ ∃ n, 31 ≤ n ∧ n ≤ 33 ∧ s = twoDigitStr n)
    ∧ parseCategory "334 Computadoras".data = ⟨3, some ['3', '3', '4'], none⟩ := by
  refine ⟨(c5_parse_category_cases "TOTAL".data).1 (by decide), ?_, ?_⟩
  · exact (c5_parse_category_cases "31-33 Industrias manufactureras".data).2.2.1
      '3' '1' '3' '3' [] [] " Industrias manufactureras".data (by decide) (by decide)
      (by decide) (by decide) (by decide) (by decide)
      (fun c hc => absurd hc (List.not_mem_nil c))
      (fun c hc => absurd hc (List.not_mem_nil c))
  · exact ((c5_parse_category_cases "334 Computadoras".data).2.2.2.2.1
      ['3', '3', '4'] " Computadoras".data (by decide) (by decide) (by decide)
      (by decide) (by decide)
      (by intro c hc; cases hc; decide) (by decide)).2.1 (by decide)

/-- C6: the fixed-point loop terminates for every input.  It performs at
least one and at most `maxIterations = 50` rounds; the loop can end with
the change flag still set only when the round cap is the reason it
stopped (the state being reported as-is); and as soon as a full round
makes no change the loop returns immediately after that round. -/
theorem c6_loop_termination (rows : List Row) (cm : Nat → List Nat)
    (cols : List Nat) (v : Vals) :
    1 ≤ (fillEngine rows cm cols v).2
    ∧ (fillEngine rows cm cols v).2 ≤ maxIterations
    ∧ ((fillEngine rows cm cols v).1.changed = false
       ∨ (fillEngine rows cm cols v).2 = maxIterations)
    ∧ (∀ (fuel : Nat) (s : EngineSt) (n : Nat),
        (runRound rows cm cols { s with changed := false }).changed = false →
        fillLoopAux rows cm cols (fuel + 1) s n
          = (runRound rows cm cols { s with changed := false }, n + 1)) := by
  have hb := fillLoopAux_bound rows cm cols maxIterations ⟨v, false, 0, [], []⟩ 0
    rfl (by decide)
  refine ⟨hb.1, hb.2.1, hb.2.2, ?_⟩
  intro fuel s n h
  rw [fillLoopAux, if_pos (Or.inl h)]

/-- C6 witness: on the empty table the loop stops after its first round,
which makes no change. -/
theorem c6_witness :
    fillLoopAux [] (fun _ => []) [] 1 ⟨vTw, false, 0, [], []⟩ 0
      = (runRound [] (fun _ => []) []
          { (⟨vTw, false, 0, [], []⟩ : EngineSt) with changed := false }, 1) :=
  (c6_loop_termination [] (fun _ => []) [] vTw).2.2.2 0 ⟨vTw, false, 0, [], []⟩ 0 rfl

/-- C7: on any value state on which a full round of the fill engine makes
no change, a fresh engine run returns after exactly one round, reporting
no change, zero fills, and an unchanged value table. -/
theorem c7_idempotent_at_fixed_point (rows : List Row) (cm : Nat → List Nat)
    (cols : List Nat) (v : Vals)
    (h : (runRound rows cm cols ⟨v, false, 0, [], []⟩).changed = false) :
    fillEngine rows cm cols v = (runRound rows cm cols ⟨v, false, 0, [], []⟩, 1)
    ∧ (runRound rows cm cols ⟨v, false, 0, [], []⟩).vals = v
    ∧ (runRound rows cm cols ⟨v, false, 0, [], []⟩).filled = 0 := by
  have hnc := runRound_nochange cm cols rows.enum ⟨v, false, 0, [], []⟩ h
  refine ⟨?_, hnc.1, hnc.2.1⟩
  have h' : (runRound rows cm cols
      { (⟨v, false, 0, [], []⟩ : EngineSt) with changed := false }).changed = false := h
  show fillLoopAux rows cm cols (49 + 1) ⟨v, false, 0, [], []⟩ 0 = _
  rw [fillLoopAux, if_pos (Or.inl h')]

/-- C7 witness: the empty table is a fixed point, and a run on it stops
after one no-change round with zero fills. -/
theorem c7_witness :
    fillEngine [] (fun _ => []) [] vTw
      = (runRound [] (fun _ => []) [] ⟨vTw, false, 0, [], []⟩, 1)
    ∧ (runRound [] (fun _ => []) [] ⟨vTw, false, 0, [], []⟩).vals = vTw
    ∧ (runRound [] (fun _ => []) [] ⟨vTw, false, 0, [], []⟩).filled = 0 :=
  c7_idempotent_at_fixed_point [] (fun _ => []) [] vTw rfl

/-- C10: a known numeric cell is never overwritten: the fill engine, the
imputation pass, and the whole pipeline all leave it with its original
value. -/
theorem c10_no_overwrite (rows : List Row) (cm : Nat → List Nat)
    (cols : List Nat) (v : Vals) (log : List LogEntry) (i c : Nat) (q : ℚ)
    (h : v i c = Val.num q) :
    (fillEngine rows cm cols v).1.vals i c = v i c
    ∧ (imputeAll rows cols v log).1 i c = v i c
    ∧ (∀ labels, (pipeline labels cols v).finalVals i c = v i c) := by
  refine ⟨?_, ?_, ?_⟩
  · rw [h]
    exact fillLoopAux_preserves_num rows cm cols maxIterations
      ⟨v, false, 0, [], []⟩ 0 i c q h
  · rw [h]
    exact imputeAll_preserves_num rows cols v log i c q h
  · intro labels
    rw [h]
    unfold pipeline
    exact imputeAll_preserves_num _ cols _ _ i c q
      (fillLoopAux_preserves_num _ _ cols maxIterations ⟨v, false, 0, [], []⟩ 0 i c q h)

/-- C10 witness: the known child value 3 survives both passes unchanged. -/
theorem c10_witness :
    vTw 1 0 = Val.num 3
    ∧ (fillEngine rowsTw cmTw [0] vTw).1.vals 1 0 = vTw 1 0
    ∧ (imputeAll rowsTw [0] vTw []).1 1 0 = vTw 1 0 :=
  ⟨rfl, (c10_no_overwrite rowsTw cmTw [0] vTw [] 1 0 3 rfl).1,
   (c10_no_overwrite rowsTw cmTw [0] vTw [] 1 0 3 rfl).2.1⟩

/-- C9 counterexample: the trimmed label "TOTAL FDI" contains the word
TOTAL, yet the parser returns level 0, not -1 (the TOTAL branch requires
the whole trimmed label to equal "TOTAL"). -/
theorem c9_counterexample :
    hasTotalSub (strip "TOTAL FDI".data) = true
    ∧ (parseCategory "TOTAL FDI".data).level = 0
    ∧ ¬ ((0 : Int) = -1) := by
  decide

/-- C9 amended: a label whose trimmed text equals "TOTAL" case
insensitively (any letter case, any surrounding whitespace) parses to
level -1. -/
theorem c9_amended_total_exact (cs : List Char)
    (h : (strip cs).map Char.toUpper = "TOTAL".data) :
    (parseCategory cs).level = -1 := by
  simp only [parseCategory]
  rw [if_pos h]

/-- C9 witness: "  ToTaL " trims and uppercases to TOTAL and parses to
level -1. -/
theorem c9_witness : (parseCategory "  ToTaL ".data).level = -1 :=
  c9_amended_total_exact "  ToTaL ".data (by decide)

/-- C3 amended: levels, codes and parent links from the main hierarchy
pass never change afterwards except in the retroactive TOTAL-attachment
step, which the pipeline runs after the fill engine and before the mean
imputer; that step only gives still-parentless level-0 rows the first
grand-total row as parent, so from the imputer onwards every level-0 row
has a parent whenever a level -1 row exists, while during the fill loop an
initially parentless level-0 row still has no parent. -/
theorem c3_amended_retro_attach :
    (∀ (labels : List (List Char)) (cols : List Nat) (v0 : Vals),
      (pipeline labels cols v0).engine
        = (fillEngine (buildHierarchy labels).rows (buildHierarchy labels).cm cols v0).1
      ∧ (pipeline labels cols v0).attachedRows
        = (retroAttach (buildHierarchy labels).rows (buildHierarchy labels).cm).1
      ∧ (pipeline labels cols v0).finalVals
        = (imputeAll (pipeline labels cols v0).attachedRows cols
            (pipeline labels cols v0).engine.vals
            (pipeline labels cols v0).engine.log).1)
    ∧ (∀ (rows : List Row) (cm : Nat → List Nat) (i : Nat) (r' : Row),
        (retroAttach rows cm).1.get? i = some r' →
        ∃ r, rows.get? i = some r ∧ r'.name = r.name ∧ r'.level = r.level
          ∧ r'.code = r.code ∧ r'.special = r.special
          ∧ (r'.parent = r.parent
             ∨ (r.level = 0 ∧ r.parent = none ∧ r'.parent = totalIdx rows
                ∧ totalIdx rows ≠ none)))
    ∧ (∀ (rows : List Row) (cm : Nat → List Nat) (t : Nat),
        totalIdx rows = some t →
        ∀ (i : Nat) (r' : Row), (retroAttach rows cm).1.get? i = some r' →
        r'.level = 0 → r'.parent ≠ none) := by
  refine ⟨fun labels cols v0 => ⟨rfl, rfl, rfl⟩, ?_, ?_⟩
  · intro rows cm i r' h
    unfold retroAttach at h
    cases ht : totalIdx rows with
    | none =>
      rw [ht] at h
      exact ⟨r', h, rfl, rfl, rfl, rfl, Or.inl rfl⟩
    | some t =>
      rw [ht] at h
      simp only [List.get?_map] at h
      cases hg : rows.get? i with
      | none => rw [hg] at h; exact absurd h (by simp)
      | some r =>
        rw [hg] at h
        simp only [Option.map_some'] at h
        by_cases hc : r.level = 0 ∧ r.parent = none
        · rw [if_pos hc] at h
          injection h with h2
          subst h2
          exact ⟨r, rfl, rfl, rfl, rfl, rfl,
            Or.inr ⟨hc.1, hc.2, by simp, by simp⟩⟩
        · rw [if_neg hc] at h
          injection h with h2
          subst h2
          exact ⟨r, rfl, rfl, rfl, rfl, rfl, Or.inl rfl⟩
  · intro rows cm t ht i r' h hl
    unfold retroAttach at h
    rw [ht] at h
    simp only [List.get?_map] at h
    cases hg : rows.get? i with
    | none => rw [hg] at h; exact absurd h (by simp)
    | some r =>
      rw [hg] at h
      simp only [Option.map_some'] at h
      by_cases hc : r.level = 0 ∧ r.parent = none
      · rw [if_pos hc] at h
        cases h
        simp
      · rw [if_neg hc] at h
        cases h
        intro hp
        rw [not_and_or] at hc
        rcases hc with hc | hc
        · exact hc hl
        · exact hc hp

/-- C3 witness: on the `labelsC3` input the retroactive step gives the
initially parentless level-0 row the grand total as parent. -/
theorem c3_witness :
    (retroAttach (buildHierarchy labelsC3).rows (buildHierarchy labelsC3).cm).1.get? 0
      = some ⟨"Agricultura".data, 0, none, none, some 1⟩
    ∧ (⟨"Agricultura".data, 0, none, none, some 1⟩ : Row).parent ≠ none := by
  refine ⟨by decide, ?_⟩
  exact c3_amended_retro_attach.2.2 (buildHierarchy labelsC3).rows
    (buildHierarchy labelsC3).cm 1 (by decide) 0
    ⟨"Agricultura".data, 0, none, none, some 1⟩ (by decide) rfl

end FDI
